import Mathlib

/-!
Verification of the TheSolution CAD scene-hierarchy core.

This file shallowly embeds the two core Python modules:

* `solution_coordinate.py` — the `SolutionCoordinate` value type
  (six scalars: position `x, y, z`, orientation `a, b, c`) with its
  `__add__`, `__sub__`, `copy` operations and defaults;
* `base_solution.py` — the `Solution` scene node with its hierarchy
  operations (`add_child`, `remove_child`, `get_children`, `get_parent`,
  `get_root`, `get_descendants`, `get_absolute_coordinate`,
  `_combine_coordinates`, `copy`, `__init__`).

Modelling conventions:

* Python floats are modelled as exact rationals (`Rat`); the properties at
  issue are the algebraic composition rules, not IEEE rounding.
* The mutable object graph of `Solution` nodes is modelled as a store
  (`World`): a total map from node identity (`Nat`) to node record.
  Python attribute mutation becomes pointwise store update, which models
  Python reference aliasing faithfully (updates to the same identity
  compose in program order).
* The property bag `Dict[str, Any]` is modelled with string values; the
  claims only ever copy or default it.
* `uuid.uuid4()` in `_generate_id` is modelled by a fresh-identifier
  supply (a counter threaded through construction); the property used by
  the code and its spec is only freshness/distinctness of generated ids.
* Walks along parent references (`get_root`, `get_absolute_coordinate`)
  are recursive in Python with no cycle guard; they are embedded with an
  explicit fuel argument, and claims about them assume the parent chain
  terminates within the fuel (`chainOk`), which is the embedding of the
  spec's "finite acyclic hierarchy" premise.
-/

/-- Embeds `SolutionCoordinate.__init__`'s state: three positional and
three orientation scalars (`solution_coordinate.py`). -/
structure SolutionCoordinate where
  x : Rat
  y : Rat
  z : Rat
  a : Rat
  b : Rat
  c : Rat
deriving DecidableEq, Repr

namespace SolutionCoordinate

/-- The constructor defaults: `x = y = z = 0.0`, `a = b = c = 1.0`. -/
def defaultCoordinate : SolutionCoordinate :=
  { x := 0, y := 0, z := 0, a := 1, b := 1, c := 1 }

/-- Embeds `SolutionCoordinate.__add__`: positions add component-wise,
orientations multiply component-wise. -/
def add (u v : SolutionCoordinate) : SolutionCoordinate :=
  { x := u.x + v.x
    y := u.y + v.y
    z := u.z + v.z
    a := u.a * v.a
    b := u.b * v.b
    c := u.c * v.c }

/-- Embeds `SolutionCoordinate.__sub__`: positions subtract component-wise;
each orientation component divides when the right operand's component is
nonzero and otherwise falls back to the left operand's component. -/
def sub (u v : SolutionCoordinate) : SolutionCoordinate :=
  { x := u.x - v.x
    y := u.y - v.y
    z := u.z - v.z
    a := if v.a ≠ 0 then u.a / v.a else u.a
    b := if v.b ≠ 0 then u.b / v.b else u.b
    c := if v.c ≠ 0 then u.c / v.c else u.c }

/-- Embeds `SolutionCoordinate.copy`: a fresh record with the same six
scalars (value-identical under the store-free value embedding). -/
def copy (u : SolutionCoordinate) : SolutionCoordinate :=
  { x := u.x, y := u.y, z := u.z, a := u.a, b := u.b, c := u.c }

end SolutionCoordinate

/-- Embeds the per-object state set up by `Solution.__init__`
(`base_solution.py`): name, coordinate, child list (as node identities),
optional parent (as a node identity), generated id, visibility and lock
flags, and the property bag. -/
structure Node where
  name : String
  coordinate : SolutionCoordinate
  children : List Nat
  parent : Option Nat
  id : Nat
  visible : Bool
  locked : Bool
  properties : List (String × String)
deriving DecidableEq, Repr

/-- The store of `Solution` objects: a total map from node identity to node
record. Python references to `Solution` objects become `Nat` identities. -/
structure World where
  node : Nat → Node

/-- Pointwise store update: mutate the record of one node identity. -/
def setNode (w : World) (i : Nat) (f : Node → Node) : World :=
  ⟨fun j => if j = i then f (w.node j) else w.node j⟩

theorem setNode_node (w : World) (i : Nat) (f : Node → Node) (j : Nat) :
    (setNode w i f).node j = if j = i then f (w.node j) else w.node j := rfl

/-- Embeds `Solution.add_child`: no-op when the child is already in this
node's child list; otherwise removes the child from its previous parent's
child list (first occurrence, Python `list.remove`), sets the child's
parent reference to this node, and appends it to this node's child list. -/
def add_child (w : World) (p c : Nat) : World :=
  if c ∈ (w.node p).children then w
  else
    let w1 :=
      match (w.node c).parent with
      | some q => setNode w q (fun n => { n with children := n.children.erase c })
      | none => w
    let w2 := setNode w1 c (fun n => { n with parent := some p })
    setNode w2 p (fun n => { n with children := n.children ++ [c] })

/-- Embeds `Solution.remove_child`: when the child is in this node's child
list, removes it (first occurrence) and clears its parent reference;
otherwise a no-op. -/
def remove_child (w : World) (p c : Nat) : World :=
  if c ∈ (w.node p).children then
    let w1 := setNode w p (fun n => { n with children := n.children.erase c })
    setNode w1 c (fun n => { n with parent := none })
  else w

/-- Embeds `Solution.get_children` at the value level: the current child
list (the Python method returns a copy of this list; the aliasing aspect is
modelled separately by the list-heap development below). -/
def get_children (w : World) (n : Nat) : List Nat :=
  (w.node n).children

/-- Embeds `Solution.get_parent`. -/
def get_parent (w : World) (n : Nat) : Option Nat :=
  (w.node n).parent

/-- The single-parent invariant of the hierarchy: any node occurring in a
parent's child list occurs there exactly once and its parent reference
points at that parent (hence it is in at most one parent's child list). -/
def SingleParentInv (w : World) : Prop :=
  ∀ p c : Nat, c ∈ (w.node p).children →
    (w.node c).parent = some p ∧ (w.node p).children.count c = 1

/-- A hierarchy mutation: one `add_child` or `remove_child` call. -/
inductive HierOp where
  | add (p c : Nat)
  | remove (p c : Nat)

/-- Run one hierarchy mutation on the store. -/
def applyOp (w : World) : HierOp → World
  | .add p c => add_child w p c
  | .remove p c => remove_child w p c

/-- Run a sequence of hierarchy mutations in order. -/
def applyOps (w : World) (ops : List HierOp) : World :=
  ops.foldl applyOp w

theorem add_child_parent (w : World) (p c : Nat) (h : c ∉ (w.node p).children)
    (i : Nat) :
    ((add_child w p c).node i).parent =
      if i = c then some p else (w.node i).parent := by
  unfold add_child
  rw [if_neg h]
  cases hp : (w.node c).parent with
  | none =>
    simp only [setNode_node]
    split_ifs <;> simp_all
  | some q =>
    simp only [setNode_node]
    split_ifs <;> simp_all

theorem add_child_children (w : World) (p c : Nat) (h : c ∉ (w.node p).children)
    (i : Nat) :
    ((add_child w p c).node i).children =
      (if (w.node c).parent = some i
        then ((w.node i).children).erase c
        else (w.node i).children)
      ++ (if i = p then [c] else []) := by
  unfold add_child
  rw [if_neg h]
  cases hp : (w.node c).parent with
  | none =>
    simp only [setNode_node]
    split_ifs <;> simp_all
  | some q =>
    simp only [setNode_node]
    split_ifs <;> simp_all

theorem remove_child_parent (w : World) (p c : Nat) (h : c ∈ (w.node p).children)
    (i : Nat) :
    ((remove_child w p c).node i).parent =
      if i = c then none else (w.node i).parent := by
  unfold remove_child
  rw [if_pos h]
  simp only [setNode_node]
  split_ifs <;> simp_all

theorem remove_child_children (w : World) (p c : Nat) (h : c ∈ (w.node p).children)
    (i : Nat) :
    ((remove_child w p c).node i).children =
      if i = p then ((w.node p).children).erase c else (w.node i).children := by
  unfold remove_child
  rw [if_pos h]
  simp only [setNode_node]
  split_ifs <;> simp_all

theorem add_child_inv (w : World) (p c : Nat) (hw : SingleParentInv w) :
    SingleParentInv (add_child w p c) := by
  by_cases hmem : c ∈ (w.node p).children
  · unfold add_child
    rw [if_pos hmem]
    exact hw
  · intro p' c' hc'
    rw [add_child_children w p c hmem p'] at hc'
    rw [add_child_children w p c hmem p', add_child_parent w p c hmem c']
    by_cases hcc : c' = c
    · subst hcc
      have hpp : p' = p := by
        by_contra hpp
        rw [List.mem_append, if_neg hpp] at hc'
        rcases hc' with hc' | hc'
        · split at hc'
          · rename_i hq
            have hmem' : c' ∈ (w.node p').children := List.mem_of_mem_erase hc'
            have h0 : ((w.node p').children.erase c').count c' = 0 := by
              rw [List.count_erase_self, (hw p' c' hmem').2]
            exact List.count_eq_zero.mp h0 hc'
          · rename_i hq
            exact hq (hw p' c' hc').1
        · exact List.not_mem_nil c' hc'
      subst hpp
      have h0 : ((w.node p').children).count c' = 0 := List.count_eq_zero.mpr hmem
      refine ⟨by simp, ?_⟩
      rw [if_pos rfl, List.count_append]
      have h1 :
          ((if (w.node c').parent = some p'
            then ((w.node p').children).erase c'
            else (w.node p').children)).count c' = 0 := by
        split
        · rw [List.count_erase_self, h0]
        · exact h0
      rw [h1]
      simp
    · have hc'' : c' ∈
          (if (w.node c).parent = some p'
            then ((w.node p').children).erase c
            else (w.node p').children) := by
        rcases List.mem_append.mp hc' with h1 | h1
        · exact h1
        · exfalso
          split at h1
          · simp at h1
            exact hcc h1
          · exact List.not_mem_nil c' h1
      have hmem' : c' ∈ (w.node p').children := by
        revert hc''
        split
        · exact fun h1 => List.mem_of_mem_erase h1
        · exact fun h1 => h1
      refine ⟨by rw [if_neg hcc]; exact (hw p' c' hmem').1, ?_⟩
      rw [List.count_append]
      have h1 :
          ((if (w.node c).parent = some p'
            then ((w.node p').children).erase c
            else (w.node p').children)).count c' = 1 := by
        split
        · rw [List.count_erase_of_ne hcc]
          exact (hw p' c' hmem').2
        · exact (hw p' c' hmem').2
      rw [h1]
      split
      · simp [List.count_singleton', hcc]
      · simp

theorem remove_child_inv (w : World) (p c : Nat) (hw : SingleParentInv w) :
    SingleParentInv (remove_child w p c) := by
  by_cases hmem : c ∈ (w.node p).children
  · intro p' c' hc'
    rw [remove_child_children w p c hmem p'] at hc'
    rw [remove_child_children w p c hmem p', remove_child_parent w p c hmem c']
    by_cases hcc : c' = c
    · subst hcc
      exfalso
      by_cases hpp : p' = p
      · subst hpp
        rw [if_pos rfl] at hc'
        have hmem' : c' ∈ (w.node p').children := List.mem_of_mem_erase hc'
        have h0 : ((w.node p').children.erase c').count c' = 0 := by
          rw [List.count_erase_self, (hw p' c' hmem').2]
        exact List.count_eq_zero.mp h0 hc'
      · rw [if_neg hpp] at hc'
        have h1 := (hw p' c' hc').1
        have h2 := (hw p c' hmem).1
        rw [h1] at h2
        exact hpp (Option.some.inj h2)
    · rw [if_neg hcc]
      by_cases hpp : p' = p
      · subst hpp
        rw [if_pos rfl] at hc' ⊢
        have hmem' : c' ∈ (w.node p').children := List.mem_of_mem_erase hc'
        refine ⟨(hw p' c' hmem').1, ?_⟩
        rw [List.count_erase_of_ne hcc]
        exact (hw p' c' hmem').2
      · rw [if_neg hpp] at hc' ⊢
        exact hw p' c' hc'
  · unfold remove_child
    rw [if_neg hmem]
    exact hw

theorem applyOp_inv (w : World) (op : HierOp) (hw : SingleParentInv w) :
    SingleParentInv (applyOp w op) := by
  cases op with
  | add p c => exact add_child_inv w p c hw
  | remove p c => exact remove_child_inv w p c hw

theorem applyOps_inv (w : World) (ops : List HierOp) (hw : SingleParentInv w) :
    SingleParentInv (applyOps w ops) := by
  induction ops generalizing w with
  | nil => exact hw
  | cons op ops ih => exact ih (applyOp w op) (applyOp_inv w op hw)

theorem add_child_post (w : World) (p c : Nat) (hw : SingleParentInv w) :
    ((add_child w p c).node c).parent = some p
    ∧ ((add_child w p c).node p).children.count c = 1 := by
  by_cases hmem : c ∈ (w.node p).children
  · unfold add_child
    rw [if_pos hmem]
    exact hw p c hmem
  · rw [add_child_parent w p c hmem c, add_child_children w p c hmem p]
    refine ⟨by simp, ?_⟩
    rw [if_pos rfl, List.count_append]
    have h0 : ((w.node p).children).count c = 0 := List.count_eq_zero.mpr hmem
    have h1 :
        ((if (w.node c).parent = some p
          then ((w.node p).children).erase c
          else (w.node p).children)).count c = 0 := by
      split
      · rw [List.count_erase_self, h0]
      · exact h0
    rw [h1]
    simp

/-- A node as built by the default constructor, used to seed example
stores: empty child list, no parent. -/
def blankNode : Node :=
  { name := "Solution"
    coordinate := SolutionCoordinate.defaultCoordinate
    children := []
    parent := none
    id := 0
    visible := true
    locked := false
    properties := [] }

/-- A store of freshly constructed, unrelated nodes. -/
def emptyWorld : World := ⟨fun _ => blankNode⟩

theorem emptyWorld_inv : SingleParentInv emptyWorld := by
  intro p c h
  exact absurd h (List.not_mem_nil c)

/-- C1: re-parenting preserves the single-parent invariant. For distinct
nodes `A`, `B`, `C` in a store satisfying the invariant, after
`A.add_child(B)` then `C.add_child(B)`, `B` is no longer in
`A.get_children()`, occurs exactly once in `C.get_children()`, and
`B.get_parent()` is `C`; moreover every sequence of
`add_child`/`remove_child` calls preserves the invariant. -/
theorem c1_reparenting_single_parent (w : World) (A B C : Nat)
    (hw : SingleParentInv w) (hAB : A ≠ B) (hAC : A ≠ C) (hBC : B ≠ C) :
    B ∉ get_children (add_child (add_child w A B) C B) A
    ∧ (get_children (add_child (add_child w A B) C B) C).count B = 1
    ∧ get_parent (add_child (add_child w A B) C B) B = some C
    ∧ ∀ ops : List HierOp, SingleParentInv (applyOps w ops) := by
  have hw1 : SingleParentInv (add_child w A B) := add_child_inv w A B hw
  have hpost := add_child_post w A B hw
  have hBnotC : B ∉ ((add_child w A B).node C).children := by
    intro hmem
    have h1 := (hw1 C B hmem).1
    rw [hpost.1] at h1
    exact hAC (Option.some.inj h1)
  have hpost2 := add_child_post (add_child w A B) C B hw1
  refine ⟨?_, hpost2.2, hpost2.1, fun ops => applyOps_inv w ops hw⟩
  show B ∉ ((add_child (add_child w A B) C B).node A).children
  have hch : ((add_child (add_child w A B) C B).node A).children =
      ((add_child w A B).node A).children.erase B := by
    rw [add_child_children (add_child w A B) C B hBnotC A, hpost.1, if_pos rfl,
      if_neg hAC, List.append_nil]
  rw [hch]
  intro hmem
  have h0 : (((add_child w A B).node A).children.erase B).count B = 0 := by
    rw [List.count_erase_self, hpost.2]
  exact List.count_eq_zero.mp h0 hmem

theorem c1_reparenting_single_parent_witness :
    SingleParentInv emptyWorld
    ∧ (0 : Nat) ≠ 1 ∧ (0 : Nat) ≠ 2 ∧ (1 : Nat) ≠ 2
    ∧ (1 ∉ get_children (add_child (add_child emptyWorld 0 1) 2 1) 0
       ∧ (get_children (add_child (add_child emptyWorld 0 1) 2 1) 2).count 1 = 1
       ∧ get_parent (add_child (add_child emptyWorld 0 1) 2 1) 1 = some 2
       ∧ ∀ ops : List HierOp, SingleParentInv (applyOps emptyWorld ops)) :=
  ⟨emptyWorld_inv, by decide, by decide, by decide,
    c1_reparenting_single_parent emptyWorld 0 1 2 emptyWorld_inv
      (by decide) (by decide) (by decide)⟩

/-- C2: postcondition of `add_child`. In a store satisfying the
single-parent invariant, after `A.add_child(B)`, `B.get_parent()` is `A`
and `B` occurs exactly once in `A.get_children()`; and when `B` is already
a direct child of `A`, the call leaves the whole store unchanged. -/
theorem c2_add_child_postcondition (w : World) (A B : Nat)
    (hw : SingleParentInv w) :
    get_parent (add_child w A B) B = some A
    ∧ (get_children (add_child w A B) A).count B = 1
    ∧ (B ∈ get_children w A → add_child w A B = w) := by
  have hpost := add_child_post w A B hw
  refine ⟨hpost.1, hpost.2, fun hmem => ?_⟩
  have hmem' : B ∈ (w.node A).children := hmem
  unfold add_child
  rw [if_pos hmem']

theorem c2_add_child_postcondition_witness :
    SingleParentInv emptyWorld
    ∧ (get_parent (add_child emptyWorld 0 1) 1 = some 0
       ∧ (get_children (add_child emptyWorld 0 1) 0).count 1 = 1
       ∧ (1 ∈ get_children emptyWorld 0 → add_child emptyWorld 0 1 = emptyWorld)) :=
  ⟨emptyWorld_inv, c2_add_child_postcondition emptyWorld 0 1 emptyWorld_inv⟩

/-- C4: totality of the coordinate operations and the divide-by-zero
guard of subtraction. `sub` is a total function; its position components
are always the component-wise difference, and each orientation component
is the quotient when the right operand's component is nonzero and
otherwise falls back to the left operand's (the dividend's) component. -/
theorem c4_sub_total_guarded (u v : SolutionCoordinate) :
    (u.sub v).x = u.x - v.x
    ∧ (u.sub v).y = u.y - v.y
    ∧ (u.sub v).z = u.z - v.z
    ∧ (v.a ≠ 0 → (u.sub v).a = u.a / v.a) ∧ (v.a = 0 → (u.sub v).a = u.a)
    ∧ (v.b ≠ 0 → (u.sub v).b = u.b / v.b) ∧ (v.b = 0 → (u.sub v).b = u.b)
    ∧ (v.c ≠ 0 → (u.sub v).c = u.c / v.c) ∧ (v.c = 0 → (u.sub v).c = u.c) := by
  refine ⟨rfl, rfl, rfl, fun h => ?_, fun h => ?_, fun h => ?_, fun h => ?_,
    fun h => ?_, fun h => ?_⟩ <;> simp [SolutionCoordinate.sub, h]

theorem c4_sub_total_guarded_witness :
    ((SolutionCoordinate.mk 1 2 3 4 5 6).sub (SolutionCoordinate.mk 6 5 4 0 1 2)).a
      = (4 : Rat) :=
  (c4_sub_total_guarded (SolutionCoordinate.mk 1 2 3 4 5 6)
    (SolutionCoordinate.mk 6 5 4 0 1 2)).2.2.2.2.1 rfl

/-- C5: subtraction inverts addition. When every orientation component of
`v` is nonzero, `(u + v) - v = u`: positions cancel the sum exactly and
orientations cancel the product exactly. -/
theorem c5_sub_inverts_add (u v : SolutionCoordinate)
    (ha : v.a ≠ 0) (hb : v.b ≠ 0) (hc : v.c ≠ 0) :
    (u.add v).sub v = u := by
  cases u with
  | mk ux uy uz ua ub uc =>
    cases v with
    | mk vx vy vz va vb vc =>
      simp only [SolutionCoordinate.add, SolutionCoordinate.sub] at *
      simp only [if_pos ha, if_pos hb, if_pos hc, SolutionCoordinate.mk.injEq]
      refine ⟨by ring, by ring, by ring, ?_, ?_, ?_⟩
      · exact mul_div_cancel_right₀ ua ha
      · exact mul_div_cancel_right₀ ub hb
      · exact mul_div_cancel_right₀ uc hc

theorem c5_sub_inverts_add_witness :
    (3 : Rat) ≠ 0 ∧ (5 : Rat) ≠ 0 ∧ (7 : Rat) ≠ 0
    ∧ ((SolutionCoordinate.mk 1 2 3 4 5 6).add (SolutionCoordinate.mk 9 8 7 3 5 7)).sub
        (SolutionCoordinate.mk 9 8 7 3 5 7) = SolutionCoordinate.mk 1 2 3 4 5 6 :=
  ⟨by decide, by decide, by decide,
    c5_sub_inverts_add (SolutionCoordinate.mk 1 2 3 4 5 6)
      (SolutionCoordinate.mk 9 8 7 3 5 7) (by decide) (by decide) (by decide)⟩

/-- Embeds `Solution._combine_coordinates`: positions add component-wise,
orientations multiply component-wise. -/
def combine_coordinates (parent child : SolutionCoordinate) : SolutionCoordinate :=
  { x := parent.x + child.x
    y := parent.y + child.y
    z := parent.z + child.z
    a := parent.a * child.a
    b := parent.b * child.b
    c := parent.c * child.c }

/-- Embeds `Solution.get_root`'s `while current.parent` walk, with explicit
fuel standing in for the absent cycle guard. -/
def get_root (w : World) : Nat → Nat → Nat
  | 0, n => n
  | fuel + 1, n =>
    match (w.node n).parent with
    | none => n
    | some p => get_root w fuel p

/-- The parent chain starting at a node reaches a parentless node within
the given fuel: the embedding of "finite acyclic ancestor chain". -/
def chainOk (w : World) : Nat → Nat → Bool
  | 0, n => ((w.node n).parent).isNone
  | fuel + 1, n =>
    match (w.node n).parent with
    | none => true
    | some p => chainOk w fuel p

/-- Embeds `Solution.get_absolute_coordinate`: a parentless node yields a
copy of its own coordinate, otherwise the parent's absolute coordinate is
combined with the node's local coordinate. Fuel stands in for the absent
cycle guard of the Python recursion. -/
def get_absolute_coordinate (w : World) : Nat → Nat → SolutionCoordinate
  | 0, n => ((w.node n).coordinate).copy
  | fuel + 1, n =>
    match (w.node n).parent with
    | none => ((w.node n).coordinate).copy
    | some p =>
      combine_coordinates (get_absolute_coordinate w fuel p) (w.node n).coordinate

theorem chainOk_mono (w : World) (f : Nat) :
    ∀ n g, chainOk w f n = true → f ≤ g → chainOk w g n = true := by
  induction f with
  | zero =>
    intro n g h hg
    have hp : (w.node n).parent = none := by
      simpa [chainOk, Option.isNone_iff_eq_none] using h
    cases g with
    | zero => exact h
    | succ g' => simp [chainOk, hp]
  | succ f ih =>
    intro n g h hg
    cases hp : (w.node n).parent with
    | none =>
      cases g with
      | zero => simp [chainOk, hp]
      | succ g' => simp [chainOk, hp]
    | some p =>
      have hf : chainOk w f p = true := by simpa [chainOk, hp] using h
      cases g with
      | zero => omega
      | succ g' =>
        have h2 : chainOk w g' p = true := ih p g' hf (by omega)
        simp [chainOk, hp, h2]

theorem get_root_stable (w : World) (f : Nat) :
    ∀ n g, chainOk w f n = true → f ≤ g → get_root w g n = get_root w f n := by
  induction f with
  | zero =>
    intro n g h hg
    have hp : (w.node n).parent = none := by
      simpa [chainOk, Option.isNone_iff_eq_none] using h
    cases g with
    | zero => rfl
    | succ g' => simp [get_root, hp]
  | succ f ih =>
    intro n g h hg
    cases hp : (w.node n).parent with
    | none =>
      cases g with
      | zero => simp [get_root, hp]
      | succ g' => simp [get_root, hp]
    | some p =>
      have hf : chainOk w f p = true := by simpa [chainOk, hp] using h
      cases g with
      | zero => omega
      | succ g' =>
        have h2 : get_root w g' p = get_root w f p := ih p g' hf (by omega)
        simp [get_root, hp, h2]

theorem get_absolute_coordinate_stable (w : World) (f : Nat) :
    ∀ n g, chainOk w f n = true → f ≤ g →
      get_absolute_coordinate w g n = get_absolute_coordinate w f n := by
  induction f with
  | zero =>
    intro n g h hg
    have hp : (w.node n).parent = none := by
      simpa [chainOk, Option.isNone_iff_eq_none] using h
    cases g with
    | zero => rfl
    | succ g' => simp [get_absolute_coordinate, hp]
  | succ f ih =>
    intro n g h hg
    cases hp : (w.node n).parent with
    | none =>
      cases g with
      | zero => simp [get_absolute_coordinate, hp]
      | succ g' => simp [get_absolute_coordinate, hp]
    | some p =>
      have hf : chainOk w f p = true := by simpa [chainOk, hp] using h
      cases g with
      | zero => omega
      | succ g' =>
        have h2 : get_absolute_coordinate w g' p = get_absolute_coordinate w f p :=
          ih p g' hf (by omega)
        simp [get_absolute_coordinate, hp, h2]

/-- The spec's worked example: a parentless node `0` at position (1,2,3)
with orientation (1,1,1), and its child node `1` at local position (4,5,6)
with orientation (2,2,2). -/
def exampleWorld : World :=
  ⟨fun i =>
    if i = 0 then
      { blankNode with
          children := [1]
          coordinate := SolutionCoordinate.mk 1 2 3 1 1 1 }
    else if i = 1 then
      { blankNode with
          parent := some 0
          coordinate := SolutionCoordinate.mk 4 5 6 2 2 2 }
    else blankNode⟩

/-- C3: absolute-coordinate composition. For a node whose ancestor chain
terminates within the fuel, `get_absolute_coordinate` returns a copy of the
node's own coordinate when it has no parent and otherwise combines the
parent's absolute coordinate with the node's local coordinate (positions
sum, orientations multiply component-wise); on the spec's worked example
the child's absolute coordinate is position (5,7,9), orientation (2,2,2). -/
theorem c3_absolute_coordinate_composition (w : World) (fuel n : Nat)
    (h : chainOk w fuel n = true) :
    ((w.node n).parent = none →
      get_absolute_coordinate w fuel n = ((w.node n).coordinate).copy)
    ∧ (∀ p, (w.node n).parent = some p →
        get_absolute_coordinate w fuel n =
          combine_coordinates (get_absolute_coordinate w fuel p)
            (w.node n).coordinate)
    ∧ get_absolute_coordinate exampleWorld 1 1 = SolutionCoordinate.mk 5 7 9 2 2 2 := by
  refine ⟨fun hp => ?_, fun p hp => ?_, ?_⟩
  · cases fuel <;> simp [get_absolute_coordinate, hp]
  · cases fuel with
    | zero =>
      have : ((w.node n).parent).isNone = true := by simpa [chainOk] using h
      rw [hp] at this
      simp at this
    | succ f =>
      have hf : chainOk w f p = true := by simpa [chainOk, hp] using h
      have h1 : get_absolute_coordinate w (f + 1) n =
          combine_coordinates (get_absolute_coordinate w f p) (w.node n).coordinate := by
        simp [get_absolute_coordinate, hp]
      rw [h1, ← get_absolute_coordinate_stable w f p (f + 1) hf (by omega)]
  · have h1 : get_absolute_coordinate exampleWorld 1 1 =
        combine_coordinates (get_absolute_coordinate exampleWorld 0 0)
          (exampleWorld.node 1).coordinate := rfl
    have h2 : get_absolute_coordinate exampleWorld 0 0 =
        SolutionCoordinate.mk 1 2 3 1 1 1 := rfl
    have h3 : (exampleWorld.node 1).coordinate =
        SolutionCoordinate.mk 4 5 6 2 2 2 := rfl
    rw [h1, h2, h3]
    simp only [combine_coordinates, SolutionCoordinate.mk.injEq]
    norm_num

theorem c3_absolute_coordinate_composition_witness :
    chainOk exampleWorld 1 1 = true
    ∧ (((exampleWorld.node 1).parent = none →
          get_absolute_coordinate exampleWorld 1 1 = ((exampleWorld.node 1).coordinate).copy)
       ∧ (∀ p, (exampleWorld.node 1).parent = some p →
            get_absolute_coordinate exampleWorld 1 1 =
              combine_coordinates (get_absolute_coordinate exampleWorld 1 p)
                (exampleWorld.node 1).coordinate)
       ∧ get_absolute_coordinate exampleWorld 1 1 = SolutionCoordinate.mk 5 7 9 2 2 2) :=
  ⟨by decide, c3_absolute_coordinate_composition exampleWorld 1 1 (by decide)⟩

/-- Nodes joined by one parent/child link. -/
def Linked (w : World) (m n : Nat) : Prop :=
  (w.node m).parent = some n ∨ (w.node n).parent = some m

/-- Membership in the same connected hierarchy: the reflexive-transitive
closure of the parent/child link relation. -/
def Connected (w : World) : Nat → Nat → Prop :=
  Relation.ReflTransGen (Linked w)

theorem get_root_parent_none (w : World) (fuel : Nat) :
    ∀ n, chainOk w fuel n = true → (w.node (get_root w fuel n)).parent = none := by
  induction fuel with
  | zero =>
    intro n h
    have hp : (w.node n).parent = none := by
      simpa [chainOk, Option.isNone_iff_eq_none] using h
    simpa [get_root] using hp
  | succ f ih =>
    intro n h
    cases hp : (w.node n).parent with
    | none => simpa [get_root, hp] using hp
    | some p =>
      have hf : chainOk w f p = true := by simpa [chainOk, hp] using h
      simpa [get_root, hp] using ih p hf

theorem get_root_of_parent_none (w : World) (fuel n : Nat)
    (h : (w.node n).parent = none) : get_root w fuel n = n := by
  cases fuel <;> simp [get_root, h]

theorem get_root_parent_step (w : World) (fuel m k : Nat)
    (hAll : ∀ j, chainOk w fuel j = true)
    (hp : (w.node m).parent = some k) :
    get_root w fuel m = get_root w fuel k := by
  have hm := hAll m
  cases fuel with
  | zero =>
    exfalso
    have : ((w.node m).parent).isNone = true := by simpa [chainOk] using hm
    rw [hp] at this
    simp at this
  | succ f =>
    have hk : chainOk w f k = true := by simpa [chainOk, hp] using hm
    have h1 : get_root w (f + 1) m = get_root w f k := by simp [get_root, hp]
    rw [h1, ← get_root_stable w f k (f + 1) hk (by omega)]

/-- C6: root uniqueness. In a store whose every parent chain terminates
within the fuel, `get_root` always lands on a parentless node; any two
nodes of the same connected hierarchy get the same root; and any
parentless node connected to `N` is exactly `N`'s root. -/
theorem c6_root_unique (w : World) (fuel M N : Nat)
    (hAll : ∀ k, chainOk w fuel k = true) (hconn : Connected w M N) :
    get_parent w (get_root w fuel N) = none
    ∧ get_root w fuel M = get_root w fuel N
    ∧ (∀ r, get_parent w r = none → Connected w N r → get_root w fuel N = r) := by
  have key : ∀ x y : Nat, Connected w x y → get_root w fuel x = get_root w fuel y := by
    intro x y h
    induction h with
    | refl => rfl
    | tail hxb hstep ih =>
      rw [ih]
      rcases hstep with hp | hp
      · exact get_root_parent_step w fuel _ _ hAll hp
      · exact (get_root_parent_step w fuel _ _ hAll hp).symm
  refine ⟨get_root_parent_none w fuel N (hAll N), key M N hconn, ?_⟩
  intro r hr hcr
  rw [key N r hcr]
  exact get_root_of_parent_none w fuel r hr

theorem c6_root_unique_witness :
    (∀ k, chainOk exampleWorld 1 k = true)
    ∧ Connected exampleWorld 0 1
    ∧ (get_parent exampleWorld (get_root exampleWorld 1 1) = none
       ∧ get_root exampleWorld 1 0 = get_root exampleWorld 1 1
       ∧ (∀ r, get_parent exampleWorld r = none → Connected exampleWorld 1 r →
            get_root exampleWorld 1 1 = r)) := by
  have hAll : ∀ k, chainOk exampleWorld 1 k = true := by
    intro k
    by_cases h0 : k = 0
    · subst h0; decide
    · by_cases h1 : k = 1
      · subst h1; decide
      · simp [exampleWorld, chainOk, blankNode, h0, h1]
  have hconn : Connected exampleWorld 0 1 :=
    Relation.ReflTransGen.single (Or.inr (by decide))
  exact ⟨hAll, hconn, c6_root_unique exampleWorld 1 0 1 hAll hconn⟩

/-- A `Solution` node together with its owned subtree, the view of the
hierarchy used by the recursions of `Solution.copy` and
`Solution.get_descendants`, which walk only the child lists (the claims'
premise of a finite acyclic subtree with no shared children makes the
subtree a rose tree). -/
inductive STree where
  | node : String → SolutionCoordinate → Nat → Bool → Bool →
      List (String × String) → List STree → STree

mutual

/-- Number of nodes in the subtree, the node itself included. -/
def treeSize : STree → Nat
  | .node _ _ _ _ _ _ cs => 1 + treeSizeList cs

def treeSizeList : List STree → Nat
  | [] => 0
  | c :: cs => treeSize c + treeSizeList cs

end

mutual

/-- Embeds `Solution.get_descendants`: for each child in order, append the
child and then extend with the child's descendants. -/
def get_descendants : STree → List STree
  | .node _ _ _ _ _ _ cs => descendantsList cs

def descendantsList : List STree → List STree
  | [] => []
  | c :: cs => c :: (get_descendants c ++ descendantsList cs)

end

mutual

/-- The pre-order listing of a subtree, the node itself first: the spec's
description of the traversal, defined independently of the code's
`get_descendants` to compare against it. -/
def preorder : STree → List STree
  | .node name coord i vis lock props cs =>
    .node name coord i vis lock props cs :: preorderList cs

def preorderList : List STree → List STree
  | [] => []
  | t :: ts => preorder t ++ preorderList ts

end

mutual

/-- Embeds `Solution.copy` with the fresh-identifier supply threaded
through: builds a fresh node with the same name, a copy of the coordinate,
the same visibility/lock flags and property map, and clones each child in
order (each clone is fresh and parentless, so `add_child` inside `copy`
appends it). Returns the clone and the advanced supply. -/
def copyTree : STree → Nat → STree × Nat
  | .node name coord _ vis lock props cs, g =>
    let r := copyChildren cs (g + 1)
    (.node name coord.copy g vis lock props r.1, r.2)

def copyChildren : List STree → Nat → List STree × Nat
  | [], g => ([], g)
  | c :: cs, g =>
    let r := copyTree c g
    let rs := copyChildren cs r.2
    (r.1 :: rs.1, rs.2)

end

mutual

/-- All identifiers occurring in a subtree, in pre-order. -/
def treeIds : STree → List Nat
  | .node _ _ i _ _ _ cs => i :: treeIdsList cs

def treeIdsList : List STree → List Nat
  | [] => []
  | t :: ts => treeIds t ++ treeIdsList ts

end

mutual

/-- The identifier-erased shape of a subtree: name, coordinate, flags,
property map and child structure, with every identifier forced to 0. -/
def stripIds : STree → STree
  | .node name coord _ vis lock props cs =>
    .node name coord 0 vis lock props (stripIdsList cs)

def stripIdsList : List STree → List STree
  | [] => []
  | t :: ts => stripIds t :: stripIdsList ts

end

theorem SolutionCoordinate.copy_eq (u : SolutionCoordinate) : u.copy = u := rfl

theorem treeSize_pos (t : STree) : 1 ≤ treeSize t := by
  cases t with
  | node name coord i vis lock props cs => simp [treeSize]

mutual

theorem preorder_eq_self_cons_descendants (t : STree) :
    preorder t = t :: get_descendants t := by
  cases t with
  | node name coord i vis lock props cs =>
    simp [preorder, get_descendants, preorderList_eq_descendantsList cs]

theorem preorderList_eq_descendantsList (cs : List STree) :
    preorderList cs = descendantsList cs := by
  cases cs with
  | nil => rfl
  | cons c cs =>
    simp [preorderList, descendantsList, preorder_eq_self_cons_descendants c,
      preorderList_eq_descendantsList cs]

end

mutual

theorem descendants_length (t : STree) :
    (get_descendants t).length = treeSize t - 1 := by
  cases t with
  | node name coord i vis lock props cs =>
    simp [get_descendants, treeSize, descendantsList_length cs]

theorem descendantsList_length (cs : List STree) :
    (descendantsList cs).length = treeSizeList cs := by
  cases cs with
  | nil => rfl
  | cons c cs =>
    have h1 := descendants_length c
    have h2 := descendantsList_length cs
    have h3 := treeSize_pos c
    simp [descendantsList, treeSizeList, h1, h2]
    omega

end

mutual

theorem copyTree_supply (t : STree) (g : Nat) :
    (copyTree t g).2 = g + treeSize t := by
  cases t with
  | node name coord i vis lock props cs =>
    simp [copyTree, treeSize, copyChildren_supply cs (g + 1)]
    omega

theorem copyChildren_supply (cs : List STree) (g : Nat) :
    (copyChildren cs g).2 = g + treeSizeList cs := by
  cases cs with
  | nil => rfl
  | cons c cs =>
    have h3 := copyTree_supply c g
    have h2 := copyChildren_supply cs (g + treeSize c)
    simp [copyChildren, treeSizeList, h3, h2]
    omega

end

mutual

theorem copyTree_ids (t : STree) (g : Nat) :
    treeIds (copyTree t g).1 = List.range' g (treeSize t) := by
  cases t with
  | node name coord i vis lock props cs =>
    have h1 := copyChildren_ids cs (g + 1)
    simp [copyTree, treeIds, treeSize, h1]
    rw [Nat.add_comm 1 (treeSizeList cs), List.range'_succ]

theorem copyChildren_ids (cs : List STree) (g : Nat) :
    treeIdsList (copyChildren cs g).1 = List.range' g (treeSizeList cs) := by
  cases cs with
  | nil => rfl
  | cons c cs =>
    have h1 := copyTree_ids c g
    have h3 := copyTree_supply c g
    have h2 := copyChildren_ids cs (g + treeSize c)
    simp [copyChildren, treeIdsList, treeSizeList, h1, h2, h3]
    omega

end

mutual

theorem copyTree_strip (t : STree) (g : Nat) :
    stripIds (copyTree t g).1 = stripIds t := by
  cases t with
  | node name coord i vis lock props cs =>
    simp [copyTree, stripIds, SolutionCoordinate.copy_eq,
      copyChildren_strip cs (g + 1)]

theorem copyChildren_strip (cs : List STree) (g : Nat) :
    stripIdsList (copyChildren cs g).1 = stripIdsList cs := by
  cases cs with
  | nil => rfl
  | cons c cs =>
    simp [copyChildren, stripIdsList, copyTree_strip c g,
      copyChildren_strip cs (copyTree c g).2]

end

/-- C8: `get_descendants` is the pre-order sequence of the subtree without
the node itself (the pre-order listing is exactly the node followed by its
descendants), and its length is the subtree's node count minus one. -/
theorem c8_descendants_preorder (t : STree) :
    preorder t = t :: get_descendants t
    ∧ (get_descendants t).length = treeSize t - 1 :=
  ⟨preorder_eq_self_cons_descendants t, descendants_length t⟩

/-- C7: clone round-trip. When every identifier of the original subtree
lies below the fresh supply `g`, the clone has the same identifier-erased
shape (names, coordinates, flags, properties, child counts, recursively),
its identifiers are exactly the fresh range starting at `g`, they are
pairwise distinct, and none of them occurs in the original subtree. -/
theorem c7_clone_round_trip (t : STree) (g : Nat)
    (h : ∀ i ∈ treeIds t, i < g) :
    stripIds (copyTree t g).1 = stripIds t
    ∧ treeIds (copyTree t g).1 = List.range' g (treeSize t)
    ∧ (treeIds (copyTree t g).1).Nodup
    ∧ ∀ i ∈ treeIds (copyTree t g).1, i ∉ treeIds t := by
  refine ⟨copyTree_strip t g, copyTree_ids t g, ?_, ?_⟩
  · rw [copyTree_ids]
    exact List.nodup_range' g (treeSize t)
  · intro i hi hit
    rw [copyTree_ids, List.mem_range'_1] at hi
    have h2 := h i hit
    omega

/-- A two-node subtree used to instantiate the clone round-trip. -/
def sampleTree : STree :=
  .node "Parent" SolutionCoordinate.defaultCoordinate 0 true false []
    [.node "Child" SolutionCoordinate.defaultCoordinate 1 true false [] []]

theorem c7_clone_round_trip_witness :
    (∀ i ∈ treeIds sampleTree, i < 10)
    ∧ (stripIds (copyTree sampleTree 10).1 = stripIds sampleTree
       ∧ treeIds (copyTree sampleTree 10).1 = List.range' 10 (treeSize sampleTree)
       ∧ (treeIds (copyTree sampleTree 10).1).Nodup
       ∧ ∀ i ∈ treeIds (copyTree sampleTree 10).1, i ∉ treeIds sampleTree) := by
  have h : ∀ i ∈ treeIds sampleTree, i < 10 := by
    intro i hi
    simp [sampleTree, treeIds, treeIdsList] at hi
    rcases hi with h | h <;> omega
  exact ⟨h, c7_clone_round_trip sampleTree 10 h⟩

/-- The heap of Python list objects backing `children` attributes: a store
of list contents indexed by list reference, plus the next fresh reference.
This models Python's reference semantics for lists, which is what the
`self.children.copy()` in `get_children` is about. -/
structure ListHeap where
  contents : Nat → List Nat
  nextRef : Nat

/-- Embeds `Solution.get_children`'s `return self.children.copy()` at the
reference level: allocate a fresh list object holding a copy of the child
list stored at reference `r`, and return the fresh reference. -/
def get_children_ref (h : ListHeap) (r : Nat) : ListHeap × Nat :=
  (⟨fun i => if i = h.nextRef then h.contents r else h.contents i,
    h.nextRef + 1⟩, h.nextRef)

/-- An arbitrary in-place mutation of the list object at reference `r`
(append, remove, reorder: any function of the contents). -/
def mutateRef (h : ListHeap) (r : Nat) (f : List Nat → List Nat) : ListHeap :=
  ⟨fun i => if i = r then f (h.contents i) else h.contents i, h.nextRef⟩

/-- C9: `get_children` returns a defensive copy. If the node's `children`
attribute refers to an allocated list (reference below `nextRef`), the
returned list is fresh, its contents equal the node's current child list,
and any mutation of the returned list leaves the contents of every
allocated list reference — the node's own child list included — unchanged. -/
theorem c9_get_children_defensive_copy (h : ListHeap) (r : Nat)
    (hr : r < h.nextRef) :
    (get_children_ref h r).2 ≠ r
    ∧ ((get_children_ref h r).1).contents (get_children_ref h r).2 = h.contents r
    ∧ ∀ (f : List Nat → List Nat) (r' : Nat), r' < h.nextRef →
        (mutateRef (get_children_ref h r).1 (get_children_ref h r).2 f).contents r'
          = h.contents r' := by
  refine ⟨fun he => ?_, ?_, fun f r' hr' => ?_⟩
  · rw [show (get_children_ref h r).2 = h.nextRef from rfl] at he
    omega
  · show (if h.nextRef = h.nextRef then h.contents r else h.contents h.nextRef)
      = h.contents r
    rw [if_pos rfl]
  · show (if r' = h.nextRef then _ else _) = h.contents r'
    rw [if_neg (by omega)]
    show (if r' = h.nextRef then h.contents r else h.contents r') = h.contents r'
    rw [if_neg (by omega)]

theorem c9_get_children_defensive_copy_witness :
    (0 : Nat) < 1
    ∧ ((get_children_ref ⟨fun _ => [5], 1⟩ 0).2 ≠ 0
       ∧ ((get_children_ref ⟨fun _ => [5], 1⟩ 0).1).contents
           (get_children_ref ⟨fun _ => [5], 1⟩ 0).2 = (fun _ => [5] : Nat → List Nat) 0
       ∧ ∀ (f : List Nat → List Nat) (r' : Nat), r' < 1 →
           (mutateRef (get_children_ref ⟨fun _ => [5], 1⟩ 0).1
             (get_children_ref ⟨fun _ => [5], 1⟩ 0).2 f).contents r'
             = (fun _ => [5] : Nat → List Nat) r') :=
  ⟨by decide, c9_get_children_defensive_copy ⟨fun _ => [5], 1⟩ 0 (by decide)⟩

/-- Embeds `Solution.__init__` with the fresh-identifier supply threaded
through: name as given, coordinate defaulting to `SolutionCoordinate()`
when absent (the `coordinate or SolutionCoordinate()` idiom), empty child
list, no parent, a freshly generated id, visible, unlocked, and an empty
property bag. Returns the node and the advanced supply. -/
def mkSolution (name : String) (coordinate : Option SolutionCoordinate)
    (gen : Nat) : Node × Nat :=
  ({ name := name
     coordinate := coordinate.getD SolutionCoordinate.defaultCoordinate
     children := []
     parent := none
     id := gen
     visible := true
     locked := false
     properties := [] }, gen + 1)

/-- C10: constructor defaults. A `Solution` built with only a name has the
default coordinate — position (0,0,0), orientation (1,1,1) — an empty
child list, no parent, visibility on, lock off, and an empty property
map; and two successive constructions draw distinct identifiers. -/
theorem c10_constructor_defaults (name₁ name₂ : String) (gen : Nat) :
    (mkSolution name₁ none gen).1.name = name₁
    ∧ (mkSolution name₁ none gen).1.coordinate = SolutionCoordinate.mk 0 0 0 1 1 1
    ∧ (mkSolution name₁ none gen).1.children = []
    ∧ (mkSolution name₁ none gen).1.parent = none
    ∧ (mkSolution name₁ none gen).1.visible = true
    ∧ (mkSolution name₁ none gen).1.locked = false
    ∧ (mkSolution name₁ none gen).1.properties = []
    ∧ (mkSolution name₁ none gen).1.id
        ≠ (mkSolution name₂ none (mkSolution name₁ none gen).2).1.id := by
  refine ⟨rfl, rfl, rfl, rfl, rfl, rfl, rfl, ?_⟩
  show gen ≠ gen + 1
  omega
